import Mathlib

/-!
Shallow embedding of the Slint Python binding layer
(`api/python/slint/slint/api.py`, `models.py`, `loop.py`,
`codegen/utils.py`) and proofs about its documented behaviour.
-/

namespace SlintPy

/-! ### Identifier normalization (`_normalize_prop`, `codegen.utils.normalize_identifier`) -/

/-- The Python 3 keyword list, as recognized by `keyword.iskeyword`
(soft keywords such as `match` are not in this list). -/
def pythonKeywords : List String :=
  ["False", "None", "True", "and", "as", "assert", "async", "await",
   "break", "class", "continue", "def", "del", "elif", "else", "except",
   "finally", "for", "from", "global", "if", "in", "import", "is", "lambda",
   "nonlocal", "not", "or", "pass", "raise", "return", "try", "while",
   "with", "yield"]

/-- Embedding of Python `s.replace("-", "_")`: for a one-character pattern,
`str.replace` substitutes every occurrence character-wise. -/
def replaceDashUnderscore (s : String) : String :=
  String.mk (s.data.map fun c => if c = '-' then '_' else c)

/-- Embedding of `_normalize_prop` from `api.py`: replace hyphens by
underscores, prefix an underscore when the result starts with a digit,
and append an underscore when the result is a Python keyword. -/
def normalize_prop (name : String) : String :=
  let ident := replaceDashUnderscore name
  let ident :=
    match ident.data with
    | [] => ident
    | c :: _ => if c.isDigit then "_" ++ ident else ident
  if pythonKeywords.contains ident then ident ++ "_" else ident

/-- Embedding of `normalize_identifier` from `codegen/utils.py`: replace
hyphens by underscores and prefix an underscore when the result starts with
a digit.  The function indexes `identifier[0]` without an emptiness guard,
so the empty string raises `IndexError`, modelled as `none`. -/
def normalize_identifier (identifier : String) : Option String :=
  let identifier := replaceDashUnderscore identifier
  match identifier.data with
  | [] => none
  | c :: _ => some (if c.isDigit then "_" ++ identifier else identifier)

/-! ### Python dictionaries as insertion-ordered association lists

`_build_class` accumulates class members in a Python `dict`; we model it as
an association list in insertion order, looked up by first match (keys are
kept unique by construction, mirroring `dict` semantics). -/

/-- Embedding of the guarded insertion pattern
`if key in d: warn; continue` / `d[key] = v` used by `_build_class`:
the value is inserted only when the key is absent. -/
def dictInsertIfAbsent {M : Type} (d : List (String × M)) (k : String) (v : M) :
    List (String × M) :=
  if (d.lookup k).isSome then d else d ++ [(k, v)]

/-- Embedding of an unconditional Python `d[key] = v`: an existing binding is
updated in place (keeping its position), otherwise the pair is appended. -/
def dictSet {M : Type} (d : List (String × M)) (k : String) (v : M) :
    List (String × M) :=
  if (d.lookup k).isSome then
    d.map (fun p => if p.1 = k then (k, v) else p)
  else d ++ [(k, v)]

/-! ### The synthesized component wrapper class (`_build_class`) -/

/-- One entry of the class dictionary built by `_build_class`.  Each accessor
records the original (un-normalized) Slint name it dispatches to. -/
inductive ClassMember where
  /-- the `__init__` slot installed first (`cls_init`) -/
  | initMember : ClassMember
  /-- `property(getter, setter)` over `get_property`/`set_property` -/
  | propAccessor (orig : String) : ClassMember
  /-- `property(getter, setter)` over `invoke`/`set_callback` -/
  | callbackAccessor (orig : String) : ClassMember
  /-- read-only `property(getter)` over `invoke` -/
  | functionAccessor (orig : String) : ClassMember
  /-- read-only `property` yielding a global wrapper object -/
  | globalAccessor (globalName : String) : ClassMember
deriving DecidableEq, Repr

/-- The metadata of a compiled component consumed by `_build_class`:
the key lists of `compdef.properties`, `compdef.callbacks`,
`compdef.functions` and `compdef.globals`, in iteration order. -/
structure ComponentDefinition where
  properties : List String
  callbacks : List String
  functions : List String
  globals : List String
deriving DecidableEq, Repr

/-- Embedding of `_build_class`: starting from the dict holding `__init__`,
insert a property accessor per property name under its normalized name
(skipping duplicates), then likewise for callbacks and functions, and
finally store one global accessor per global under its raw name
(an unconditional `dict` store). -/
def buildClass (cd : ComponentDefinition) : List (String × ClassMember) :=
  let d : List (String × ClassMember) := [("__init__", ClassMember.initMember)]
  let d := cd.properties.foldl
    (fun d p => dictInsertIfAbsent d (normalize_prop p) (ClassMember.propAccessor p)) d
  let d := cd.callbacks.foldl
    (fun d c => dictInsertIfAbsent d (normalize_prop c) (ClassMember.callbackAccessor c)) d
  let d := cd.functions.foldl
    (fun d f => dictInsertIfAbsent d (normalize_prop f) (ClassMember.functionAccessor f)) d
  cd.globals.foldl
    (fun d g => dictSet d g (ClassMember.globalAccessor g)) d

/-- The native `ComponentInstance` surface used by the synthesized accessors:
`get_property`, `invoke` and the mutation entry points, by string name. -/
structure PyComponentInstance (V : Type) where
  get_property : String → V
  invoke : String → List V → V

/-- What reading a synthesized attribute yields. -/
inductive GetValue (V : Type) where
  /-- a plain property value -/
  | plain (v : V) : GetValue V
  /-- a callable forwarding its arguments -/
  | callable (f : List V → V) : GetValue V
  /-- a freshly constructed global wrapper -/
  | globalWrapper (globalName : String) : GetValue V

/-- The native side effect performed by a synthesized attribute assignment. -/
inductive SetEffect (V : Type) where
  | set_property (name : String) (value : V) : SetEffect V
  | set_callback (name : String) (value : V) : SetEffect V
deriving DecidableEq

/-- Reading a synthesized class member on an instance, mirroring the getter
closures produced by `mk_setter_getter`/`mk_getter` in `_build_class`.
`initMember` is a plain function slot, not a property descriptor (`none`). -/
def memberGet {V : Type} (inst : PyComponentInstance V) :
    ClassMember → Option (GetValue V)
  | ClassMember.initMember => none
  | ClassMember.propAccessor n => some (GetValue.plain (inst.get_property n))
  | ClassMember.callbackAccessor n => some (GetValue.callable (fun args => inst.invoke n args))
  | ClassMember.functionAccessor n => some (GetValue.callable (fun args => inst.invoke n args))
  | ClassMember.globalAccessor g => some (GetValue.globalWrapper g)

/-- Assigning to a synthesized class member, mirroring the setter closures in
`_build_class`; `none` means the descriptor has no setter (assignment raises
`AttributeError`). -/
def memberSet {V : Type} (m : ClassMember) (value : V) : Option (SetEffect V) :=
  match m with
  | ClassMember.propAccessor n => some (SetEffect.set_property n value)
  | ClassMember.callbackAccessor n => some (SetEffect.set_callback n value)
  | _ => none

/-! ### models.py: the Model base class and ListModel -/

/-- A notification emitted towards the native views by a model mutation
(`notify_row_added` / `notify_row_changed` / `notify_row_removed`).
Indices are recorded exactly as passed by the Python code (possibly
negative). -/
inductive ModelNotification where
  | row_added (index : Int) (count : Nat) : ModelNotification
  | row_changed (row : Int) : ModelNotification
  | row_removed (index : Int) (count : Nat) : ModelNotification
deriving DecidableEq, Repr

/-- Python exceptions raised by the embedded list operations. -/
inductive PyExc where
  | indexError : PyExc
  | valueError : PyExc
  | typeError : PyExc
deriving DecidableEq, Repr

/-- The three hooks of the `Model` base class, with fully abstract result
types: the dunder methods below can only delegate to them. -/
structure ModelHooks (T ρ δ ε : Type) where
  row_count : Unit → ρ
  row_data : Int → δ
  set_row_data : Int → T → ε

/-- Embedding of `Model.__len__`: `return self.row_count()`. -/
def Model_len {T ρ δ ε : Type} (m : ModelHooks T ρ δ ε) : ρ :=
  m.row_count ()

/-- Embedding of `Model.__getitem__`: `return self.row_data(index)`. -/
def Model_getitem {T ρ δ ε : Type} (m : ModelHooks T ρ δ ε) (index : Int) : δ :=
  m.row_data index

/-- Embedding of `Model.__setitem__`: `self.set_row_data(index, value)`. -/
def Model_setitem {T ρ δ ε : Type} (m : ModelHooks T ρ δ ε) (index : Int) (value : T) : ε :=
  m.set_row_data index value

/-- Embedding of Python list item assignment `xs[i] = v`: a negative index
counts from the end; out of range raises `IndexError`. -/
def pyListSetItem {T : Type} (xs : List T) (i : Int) (v : T) : Except PyExc (List T) :=
  let j := if i < 0 then i + xs.length else i
  if 0 ≤ j ∧ j < xs.length then Except.ok (xs.set j.toNat v)
  else Except.error PyExc.indexError

/-- Embedding of Python list item deletion `del xs[i]` for an integer index:
a negative index counts from the end; out of range raises `IndexError`. -/
def pyListDelItem {T : Type} (xs : List T) (i : Int) : Except PyExc (List T) :=
  let j := if i < 0 then i + xs.length else i
  if 0 ≤ j ∧ j < xs.length then Except.ok (xs.eraseIdx j.toNat)
  else Except.error PyExc.indexError

/-- A Python `slice` object: each of `start`, `stop`, `step` may be `None`. -/
structure PySlice where
  start : Option Int
  stop : Option Int
  step : Option Int
deriving DecidableEq, Repr

/-- The index-clamping step of CPython's `PySlice_AdjustIndices`, applied to
both the start and the stop of a slice. -/
def adjustIndex (step length v : Int) : Int :=
  if v < 0 then
    (if v + length < 0 then (if step < 0 then -1 else 0) else v + length)
  else if v ≥ length then (if step < 0 then length - 1 else length) else v

/-- Embedding of Python `slice.indices(length)` (CPython `PySlice_Unpack`
followed by `PySlice_AdjustIndices`): `None` bounds get direction-dependent
defaults (modelled by sentinels that adjust to the same values as CPython's
`PY_SSIZE_T_MAX`/`MIN`), a zero step raises `ValueError`. -/
def sliceIndices (s : PySlice) (length : Nat) : Except PyExc (Int × Int × Int) :=
  let L : Int := length
  let step := s.step.getD 1
  if step = 0 then Except.error PyExc.valueError
  else
    let start := adjustIndex step L (s.start.getD (if step < 0 then L else 0))
    let stop := adjustIndex step L (s.stop.getD (if step < 0 then -L - 1 else L))
    Except.ok (start, stop, step)

/-- The number of elements of Python `range(start, stop, step)`, by CPython's
closed form. -/
def rangeLength (start stop step : Int) : Nat :=
  if 0 < step then
    (if start < stop then ((stop - start - 1).toNat / step.toNat) + 1 else 0)
  else
    (if stop < start then ((start - stop - 1).toNat / (-step).toNat) + 1 else 0)

/-- The elements of Python `range(start, stop, step)`:
`start + step * k` for `k` below the range's length. -/
def rangeList (start stop step : Int) : List Int :=
  (List.range (rangeLength start stop step)).map (fun (k : Nat) => start + step * (k : Int))

/-- Embedding of CPython extended-slice deletion: remove from `xs` the
positions selected by the slice (given as the list of selected indices),
keeping the remaining elements in order. -/
def pyDelIndices {T : Type} (xs : List T) (sel : List Int) : List T :=
  (xs.enum.filter (fun p => !(sel.contains (p.1 : Int)))).map Prod.snd

/-- The argument of `ListModel.__delitem__`: an integer index or a slice. -/
inductive DelKey where
  | int (i : Int) : DelKey
  | slice (s : PySlice) : DelKey

/-- Embedding of `ListModel.append`: append to the backing list and notify
`row_added(old_length, 1)`. -/
def listModel_append {T : Type} (xs : List T) (value : T) : List T × ModelNotification :=
  (xs ++ [value], ModelNotification.row_added (xs.length : Int) 1)

/-- Embedding of `ListModel.set_row_data`: store at `row` in the backing
list and notify `row_changed(row)`. -/
def listModel_set_row_data {T : Type} (xs : List T) (row : Int) (data : T) :
    Except PyExc (List T × ModelNotification) :=
  match pyListSetItem xs row data with
  | Except.error e => Except.error e
  | Except.ok ys => Except.ok (ys, ModelNotification.row_changed row)

/-- Embedding of `ListModel.__delitem__`: for an integer key, delete it from
the backing list and notify `row_removed(key, 1)`; for a slice key, resolve
it with `key.indices(len)`, delete the selected elements, and notify
`row_removed(start, len(range(start, stop, step)))`. -/
def listModel_delitem {T : Type} (xs : List T) : DelKey →
    Except PyExc (List T × ModelNotification)
  | DelKey.int i =>
    match pyListDelItem xs i with
    | Except.error e => Except.error e
    | Except.ok ys => Except.ok (ys, ModelNotification.row_removed i 1)
  | DelKey.slice s =>
    match sliceIndices s xs.length with
    | Except.error e => Except.error e
    | Except.ok (start, stop, step) =>
      let ys := pyDelIndices xs (rangeList start stop step)
      let count := rangeLength start stop step
      Except.ok (ys, ModelNotification.row_removed start count)

/-- Embedding of `ListModel.row_data`: `return self.list[row]`
(the iterator only calls it with `0 <= row < row_count()`). -/
def listRowData {T : Type} (xs : List T) (i : Nat) : Option T :=
  xs[i]?

/-- Embedding of `ModelIterator.__next__` iterated to exhaustion, starting at
index `ix`: stop when `ix >= row_count`, otherwise read `row_data(ix)` and
continue with `ix + 1`; `none` if any read raises. -/
def iterFrom {T : Type} (rowCount : Nat) (rowData : Nat → Option T) (ix : Nat) :
    Option (List T) :=
  if h : ix < rowCount then
    match rowData ix with
    | none => none
    | some v => (iterFrom rowCount rowData (ix + 1)).map (fun rest => v :: rest)
  else some []
termination_by rowCount - ix

/-! ### Struct wrappers (`_build_struct`)

A `PyStruct` prototype or instance is modelled as the ordered record of its
field names and values; iterating it yields `(field_name, value)` pairs. -/

/-- Embedding of `setattr(inst, prop, val)` on a struct instance: the entry
for an existing field is replaced in place. -/
def structSetAttr {V : Type} (inst : List (String × V)) (k : String) (v : V) :
    List (String × V) :=
  inst.map (fun p => if p.1 = k then (k, v) else p)

/-- Embedding of `new_struct` from `_build_struct`: any positional argument
raises `TypeError`; a keyword argument outside the prototype's field set
raises `TypeError`; otherwise the result is a copy of the prototype with
each keyword field assigned (the shared prototype itself is never mutated —
the code works on `copy.copy(struct_prototype)`, which the pure embedding
reflects by folding over a fresh value). -/
def buildStructNew {V : Type} (struct_prototype : List (String × V))
    (args : List V) (kwargs : List (String × V)) : Except PyExc (List (String × V)) :=
  if args.isEmpty = false then Except.error PyExc.typeError
  else
    let field_names := struct_prototype.map Prod.fst
    let unexpected := (kwargs.map Prod.fst).filter (fun k => !(field_names.contains k))
    if unexpected ≠ [] then Except.error PyExc.typeError
    else
      Except.ok (kwargs.foldl (fun inst kv => structSetAttr inst kv.1 kv.2) struct_prototype)

/-! ### load_file: diagnostics gate and namespace construction -/

/-- The diagnostic severity levels exposed by the native compiler. -/
inductive DiagnosticLevel where
  | Error : DiagnosticLevel
  | Warning : DiagnosticLevel
deriving DecidableEq, Repr

/-- A compile diagnostic (`PyDiagnostic`): severity plus message. -/
structure PyDiagnostic where
  level : DiagnosticLevel
  message : String
deriving DecidableEq, Repr

/-- The data of the `CompileError` exception: the message and the full
diagnostics list it carries. -/
structure CompileError where
  message : String
  diagnostics : List PyDiagnostic
deriving DecidableEq, Repr

/-- The exceptions `load_file` can raise while building the namespace. -/
inductive LoadError where
  /-- `raise CompileError(f"Could not compile \x7bpath\x7d", diagnostics)` -/
  | compileError (e : CompileError) : LoadError
  /-- `getattr(module, orig_name)` on an absent attribute -/
  | attributeError (name : String) : LoadError
deriving DecidableEq, Repr

/-- The compilation result consumed by `load_file`: diagnostics, component
names with their definition lookup, struct prototypes, enums (opaque values
of type `E`; struct prototypes opaque of type `S`), and named exports as
`(original, alias)` pairs. -/
structure CompilationResult (E S : Type) where
  diagnostics : List PyDiagnostic
  component_names : List String
  component : String → Option ComponentDefinition
  structs : List (String × S)
  enums : List (String × E)
  named_exports : List (String × String)

/-- A value bound in the returned namespace. -/
inductive NsValue (E S : Type) where
  /-- a class generated by `_build_class` -/
  | componentClass (members : List (String × ClassMember)) : NsValue E S
  /-- a wrapper generated by `_build_struct` under its normalized name -/
  | structWrapper (name : String) (proto : S) : NsValue E S
  /-- an enum class bound as-is -/
  | enumBinding (e : E) : NsValue E S
deriving DecidableEq, Repr

/-- The namespace built by `load_file` before named exports are processed:
one generated class per component name whose lookup succeeds (bound under
the raw component name), then one struct wrapper and one enum binding under
their normalized names (each `setattr` is an unconditional store). -/
def buildNamespaceBase {E S : Type} (result : CompilationResult E S) :
    List (String × NsValue E S) :=
  let module : List (String × NsValue E S) := []
  let module := result.component_names.foldl (fun m comp_name =>
    match result.component comp_name with
    | none => m
    | some comp => dictSet m comp_name (NsValue.componentClass (buildClass comp))) module
  let module := result.structs.foldl (fun m ns =>
    dictSet m (normalize_prop ns.1)
      (NsValue.structWrapper (normalize_prop ns.1) ns.2)) module
  result.enums.foldl (fun m ne =>
    dictSet m (normalize_prop ne.1) (NsValue.enumBinding ne.2)) module

/-- The named-export pass of `load_file`: for each `(orig, new)` pair, look
up the normalized original name (raising `AttributeError` when absent, which
aborts `load_file`) and bind the same object under the normalized alias. -/
def applyNamedExports {E S : Type} :
    List (String × String) → List (String × NsValue E S) →
      Except LoadError (List (String × NsValue E S))
  | [], m => Except.ok m
  | oe :: rest, m =>
    match m.lookup (normalize_prop oe.1) with
    | none => Except.error (LoadError.attributeError (normalize_prop oe.1))
    | some v => applyNamedExports rest (dictSet m (normalize_prop oe.2) v)

/-- Embedding of `load_file` (after the compiler invocation): collect the
error-level diagnostics and raise `CompileError` carrying the full
diagnostics list when any exist (warnings are only logged); otherwise build
the namespace of components, structs, enums and named-export aliases. -/
def loadFile {E S : Type} (path : String) (result : CompilationResult E S) :
    Except LoadError (List (String × NsValue E S)) :=
  let diagnostics := result.diagnostics
  let errors := if diagnostics.isEmpty = false then
    diagnostics.filter (fun d => d.level == DiagnosticLevel.Error)
  else []
  if errors.isEmpty = false then
    Except.error (LoadError.compileError
      (CompileError.mk ("Could not compile " ++ path) diagnostics))
  else
    applyNamedExports result.named_exports (buildNamespaceBase result)

/-- A compilation result with one error and one warning diagnostic. -/
def resCompileErr : CompilationResult Unit Unit :=
  CompilationResult.mk
    [PyDiagnostic.mk DiagnosticLevel.Error "boom",
     PyDiagnostic.mk DiagnosticLevel.Warning "w"]
    [] (fun _ => none) [] [] []

/-- A compilation result with only a warning diagnostic. -/
def resWarnOnly : CompilationResult Unit Unit :=
  CompilationResult.mk [PyDiagnostic.mk DiagnosticLevel.Warning "w"]
    [] (fun _ => none) [] [] []

/-- A collision-free compilation result with one component, one struct, one
enum and one named export. -/
def resNsOk : CompilationResult Unit Unit :=
  CompilationResult.mk [] ["Comp"]
    (fun n => if n = "Comp" then some (ComponentDefinition.mk ["p"] [] [] []) else none)
    [("my-struct", ())] [("my-enum", ())] [("Comp", "Alias")]

/-- A compilation result where the struct name `foo-bar` normalizes to the
raw component name `foo_bar` and overwrites the component's binding. -/
def resNsColl : CompilationResult Unit Unit :=
  CompilationResult.mk [] ["foo_bar"]
    (fun n => if n = "foo_bar" then some (ComponentDefinition.mk [] [] [] []) else none)
    [("foo-bar", ())] [] []

/-! ### loop.py: `SlintEventLoop.call_later` over the native single-shot timer -/

/-- The native timer modes (`core.TimerMode`). -/
inductive TimerMode where
  | SingleShot : TimerMode
  | Repeated : TimerMode
deriving DecidableEq, Repr

/-- A `datetime.timedelta` over an abstract duration type `D`
(`timedelta(seconds=delay)` wraps the delay value). -/
structure Timedelta (D : Type) where
  seconds : D
deriving DecidableEq, Repr

/-- The arguments `call_later` passes to `timer.start`. -/
structure TimerStartArgs (D : Type) where
  mode : TimerMode
  interval : Timedelta D
deriving DecidableEq, Repr

/-- Which implementation `call_later` dispatches to:
`if self._core_loop_started and not self._core_loop_running: return super()...`
falls back to the base selector loop, otherwise a native Slint timer is used. -/
inductive CallLaterBranch where
  | baseEventLoop : CallLaterBranch
  | slintTimer : CallLaterBranch
deriving DecidableEq, Repr

/-- Embedding of the dispatch condition at the top of `call_later`. -/
def call_later_branch (core_loop_started core_loop_running : Bool) : CallLaterBranch :=
  if core_loop_started && !core_loop_running then CallLaterBranch.baseEventLoop
  else CallLaterBranch.slintTimer

/-- Embedding of the `timer.start(...)` call in `call_later`'s Slint branch:
a single-shot native timer with interval `timedelta(seconds=delay)`. -/
def call_later_timer_args {D : Type} (delay : D) : TimerStartArgs D :=
  TimerStartArgs.mk TimerMode.SingleShot (Timedelta.mk delay)

/-- Modelled from the spec: the native runtime's interaction with one
`call_later` handle, as a sequence of events — the native timer firing
(which invokes `timer_done_cb`) and the handle being cancelled
(`TimerHandle.cancel()` setting `handle._cancelled`).  The native `Timer`
implementation is not under `src/`. -/
inductive HandleEvent where
  | fire : HandleEvent
  | cancel : HandleEvent
deriving DecidableEq, Repr

/-- Modelled from the spec: "a timer primitive with single-shot/repeated
modes" — a single-shot timer invokes its callback at most once, so a valid
trace contains at most one `fire` event. -/
abbrev singleShotTrace (trace : List HandleEvent) : Prop :=
  trace.count HandleEvent.fire ≤ 1

/-- How often the handle's callback runs along a trace, given the current
cancellation flag: `timer_done_cb` runs `handle._run()` on a firing exactly
when `not handle._cancelled`; a cancel event sets the flag. -/
def handleRuns : List HandleEvent → Bool → Nat
  | [], _ => 0
  | HandleEvent.cancel :: rest, _ => handleRuns rest true
  | HandleEvent.fire :: rest, cancelled =>
    (if cancelled then 0 else 1) + handleRuns rest cancelled

/-! ### Theorems -/

/-! ### Lookup lemmas for the dictionary model -/

theorem lookup_cons_self {β : Type} (a : String) (b : β) (l : List (String × β)) :
    ((a, b) :: l).lookup a = some b := by
  simp [List.lookup]

theorem lookup_cons_ne {β : Type} {a k : String} (b : β) (l : List (String × β))
    (h : k ≠ a) : ((a, b) :: l).lookup k = l.lookup k := by
  simp [List.lookup, beq_eq_false_iff_ne.mpr h]

theorem lookup_append_of_some {β : Type} {d : List (String × β)} {k : String} {v : β}
    (e : List (String × β)) (h : d.lookup k = some v) : (d ++ e).lookup k = some v := by
  induction d with
  | nil => simp [List.lookup] at h
  | cons a rest ih =>
    obtain ⟨a1, a2⟩ := a
    rw [List.cons_append]
    by_cases hk : k = a1
    · subst hk
      rw [lookup_cons_self] at h ⊢
      exact h
    · rw [lookup_cons_ne _ _ hk] at h ⊢
      exact ih h

theorem lookup_append_of_none {β : Type} {d : List (String × β)} {k : String}
    (e : List (String × β)) (h : d.lookup k = none) : (d ++ e).lookup k = e.lookup k := by
  induction d with
  | nil => simp
  | cons a rest ih =>
    obtain ⟨a1, a2⟩ := a
    rw [List.cons_append]
    by_cases hk : k = a1
    · subst hk
      rw [lookup_cons_self] at h
      exact absurd h (by simp)
    · rw [lookup_cons_ne _ _ hk] at h ⊢
      exact ih h

theorem lookup_dictInsertIfAbsent_of_some {β : Type} {d : List (String × β)} {k : String}
    {v : β} (k' : String) (v' : β) (h : d.lookup k = some v) :
    (dictInsertIfAbsent d k' v').lookup k = some v := by
  unfold dictInsertIfAbsent
  by_cases hp : (d.lookup k').isSome
  · rw [if_pos hp]; exact h
  · rw [if_neg hp]; exact lookup_append_of_some _ h

theorem lookup_dictInsertIfAbsent_self_of_none {β : Type} {d : List (String × β)}
    {k : String} (v : β) (h : d.lookup k = none) :
    (dictInsertIfAbsent d k v).lookup k = some v := by
  unfold dictInsertIfAbsent
  rw [h]
  simp only [Option.isSome_none, Bool.false_eq_true, if_false]
  rw [lookup_append_of_none _ h]
  simp [List.lookup]

theorem lookup_dictInsertIfAbsent_other {β : Type} {d : List (String × β)} {k k' : String}
    (v' : β) (h : k ≠ k') : (dictInsertIfAbsent d k' v').lookup k = d.lookup k := by
  unfold dictInsertIfAbsent
  by_cases hp : (d.lookup k').isSome
  · rw [if_pos hp]
  · rw [if_neg hp]
    cases hd : d.lookup k with
    | some v => exact lookup_append_of_some _ hd
    | none =>
      rw [lookup_append_of_none _ hd]
      rw [lookup_cons_ne _ _ h]
      simp [List.lookup]

theorem lookup_map_override {β : Type} (d : List (String × β)) (k : String) (v : β) :
    (d.map (fun p => if p.1 = k then (k, v) else p)).lookup k =
      if (d.lookup k).isSome then some v else none := by
  induction d with
  | nil => simp [List.lookup]
  | cons a rest ih =>
    obtain ⟨a1, a2⟩ := a
    by_cases ha : a1 = k
    · subst ha
      simp only [List.map_cons, if_true]
      rw [lookup_cons_self, lookup_cons_self]
      simp
    · simp only [List.map_cons, if_neg ha]
      have hk : k ≠ a1 := fun h => ha h.symm
      rw [lookup_cons_ne _ _ hk, lookup_cons_ne _ _ hk, ih]

theorem lookup_map_override_other {β : Type} (d : List (String × β)) {k k' : String}
    (v : β) (h : k' ≠ k) :
    (d.map (fun p => if p.1 = k then (k, v) else p)).lookup k' = d.lookup k' := by
  induction d with
  | nil => simp
  | cons a rest ih =>
    obtain ⟨a1, a2⟩ := a
    by_cases ha : a1 = k
    · subst ha
      simp only [List.map_cons, if_true]
      rw [lookup_cons_ne _ _ h, lookup_cons_ne _ _ h, ih]
    · simp only [List.map_cons, if_neg ha]
      by_cases hk : k' = a1
      · subst hk
        rw [lookup_cons_self, lookup_cons_self]
      · rw [lookup_cons_ne _ _ hk, lookup_cons_ne _ _ hk, ih]

theorem lookup_dictSet_self {β : Type} (d : List (String × β)) (k : String) (v : β) :
    (dictSet d k v).lookup k = some v := by
  unfold dictSet
  by_cases hp : (d.lookup k).isSome
  · rw [if_pos hp, lookup_map_override, if_pos hp]
  · rw [if_neg hp]
    rw [lookup_append_of_none _ (Option.not_isSome_iff_eq_none.mp hp)]
    exact lookup_cons_self _ _ _

theorem lookup_dictSet_other {β : Type} (d : List (String × β)) {k k' : String} (v : β)
    (h : k' ≠ k) : (dictSet d k v).lookup k' = d.lookup k' := by
  unfold dictSet
  by_cases hp : (d.lookup k).isSome
  · rw [if_pos hp, lookup_map_override_other _ _ h]
  · rw [if_neg hp]
    cases hd : d.lookup k' with
    | some w => exact lookup_append_of_some _ hd
    | none =>
      rw [lookup_append_of_none _ hd, lookup_cons_ne _ _ h]
      simp [List.lookup]

/-! ### Fold lemmas for the class/namespace construction -/

theorem foldl_insertIfAbsent_of_some {α β : Type} (keyf : α → String) (valf : α → β)
    (xs : List α) {d : List (String × β)} {k : String} {v : β} (h : d.lookup k = some v) :
    (xs.foldl (fun d x => dictInsertIfAbsent d (keyf x) (valf x)) d).lookup k = some v := by
  induction xs generalizing d with
  | nil => exact h
  | cons x rest ih => exact ih (lookup_dictInsertIfAbsent_of_some _ _ h)

theorem foldl_insertIfAbsent_of_none {α β : Type} (keyf : α → String) (valf : α → β)
    (xs : List α) {d : List (String × β)} {k : String}
    (hks : ∀ x ∈ xs, keyf x ≠ k) (h : d.lookup k = none) :
    (xs.foldl (fun d x => dictInsertIfAbsent d (keyf x) (valf x)) d).lookup k = none := by
  induction xs generalizing d with
  | nil => exact h
  | cons x rest ih =>
    have hx : keyf x ≠ k := hks x (List.mem_cons_self x rest)
    refine ih (fun y hy => hks y (List.mem_cons_of_mem x hy)) ?_
    rw [lookup_dictInsertIfAbsent_other _ (Ne.symm hx)]
    exact h

theorem foldl_insertIfAbsent_lookup {α : Type} {β : Type} [DecidableEq α]
    (keyf : α → String) (valf : α → β)
    (xs : List α) {d : List (String × β)} {x₀ : α}
    (hmem : x₀ ∈ xs) (h : d.lookup (keyf x₀) = none)
    (huniq : ∀ x ∈ xs, keyf x = keyf x₀ → valf x = valf x₀) :
    (xs.foldl (fun d x => dictInsertIfAbsent d (keyf x) (valf x)) d).lookup (keyf x₀) =
      some (valf x₀) := by
  induction xs generalizing d with
  | nil => cases hmem
  | cons x rest ih =>
    by_cases hk : keyf x = keyf x₀
    · have hv : valf x = valf x₀ := huniq x (List.mem_cons_self x rest) hk
      have : (dictInsertIfAbsent d (keyf x) (valf x)).lookup (keyf x₀) = some (valf x₀) := by
        rw [hk, hv]
        exact lookup_dictInsertIfAbsent_self_of_none _ h
      exact foldl_insertIfAbsent_of_some keyf valf rest this
    · have hx0 : x₀ ∈ rest := by
        cases hmem with
        | head => exact absurd rfl hk
        | tail _ h' => exact h'
      refine ih hx0 ?_ (fun y hy => huniq y (List.mem_cons_of_mem x hy))
      rw [lookup_dictInsertIfAbsent_other _ (fun he => hk he.symm)]
      exact h

theorem foldl_dictSet_id_other {β : Type} (valf : String → β)
    (xs : List String) {d : List (String × β)} {k : String}
    (hks : ∀ x ∈ xs, x ≠ k) :
    (xs.foldl (fun d x => dictSet d x (valf x)) d).lookup k = d.lookup k := by
  induction xs generalizing d with
  | nil => rfl
  | cons x rest ih =>
    rw [List.foldl_cons, ih (fun y hy => hks y (List.mem_cons_of_mem x hy)),
      lookup_dictSet_other _ _ (Ne.symm (hks x (List.mem_cons_self x rest)))]

/-- Unfolding of `buildClass` into its four member-insertion passes. -/
theorem buildClass_eq (cd : ComponentDefinition) :
    buildClass cd =
      cd.globals.foldl (fun d g => dictSet d g (ClassMember.globalAccessor g))
        (cd.functions.foldl
          (fun d f => dictInsertIfAbsent d (normalize_prop f) (ClassMember.functionAccessor f))
          (cd.callbacks.foldl
            (fun d c => dictInsertIfAbsent d (normalize_prop c) (ClassMember.callbackAccessor c))
            (cd.properties.foldl
              (fun d p => dictInsertIfAbsent d (normalize_prop p) (ClassMember.propAccessor p))
              [("__init__", ClassMember.initMember)]))) := rfl

/-! ### Claim theorems about `_build_class` and the normalizers -/

/-- C2 (amended): for every property name `p` of a compiled component whose
normalized name is distinct from `__init__` and from every other property's
normalized name, and is not shadowed by a global's raw name, the synthesized
class binds the normalized name to a property whose getter reads
`instance.get_property(p)` and whose setter performs
`instance.set_property(p, value)` — dispatch is by the original string name. -/
theorem buildClass_property_accessor {V : Type} (cd : ComponentDefinition) (p : String)
    (inst : PyComponentInstance V) (value : V)
    (hmem : p ∈ cd.properties)
    (hinit : normalize_prop p ≠ "__init__")
    (huniq : ∀ q ∈ cd.properties, normalize_prop q = normalize_prop p → q = p)
    (hglob : ∀ g ∈ cd.globals, g ≠ normalize_prop p) :
    (buildClass cd).lookup (normalize_prop p) = some (ClassMember.propAccessor p) ∧
    memberGet inst (ClassMember.propAccessor p) =
      some (GetValue.plain (inst.get_property p)) ∧
    memberSet (ClassMember.propAccessor p) value =
      some (SetEffect.set_property p value) := by
  refine ⟨?_, rfl, rfl⟩
  rw [buildClass_eq]
  rw [foldl_dictSet_id_other _ cd.globals hglob]
  have h0 : (([("__init__", ClassMember.initMember)] : List (String × ClassMember))).lookup
      (normalize_prop p) = none := by
    rw [lookup_cons_ne _ _ hinit]; rfl
  have h1 := foldl_insertIfAbsent_lookup normalize_prop ClassMember.propAccessor
    cd.properties hmem h0 (fun q hq he => by rw [huniq q hq he])
  exact foldl_insertIfAbsent_of_some normalize_prop ClassMember.functionAccessor cd.functions
    (foldl_insertIfAbsent_of_some normalize_prop ClassMember.callbackAccessor cd.callbacks h1)

/-- C2 counterexample: with the property table `["foo-bar", "foo_bar"]` (two
distinct Slint property names that normalize to the same Python name), the
class member under `foo_bar` dispatches to the original name `foo-bar`, not
to `foo_bar`: the claim fails for the property name `foo_bar`. -/
theorem buildClass_property_collision :
    "foo_bar" ∈ (ComponentDefinition.mk ["foo-bar", "foo_bar"] [] [] []).properties ∧
    (buildClass (ComponentDefinition.mk ["foo-bar", "foo_bar"] [] [] [])).lookup
        (normalize_prop "foo_bar") ≠ some (ClassMember.propAccessor "foo_bar") ∧
    (buildClass (ComponentDefinition.mk ["foo-bar", "foo_bar"] [] [] [])).lookup
        (normalize_prop "foo_bar") = some (ClassMember.propAccessor "foo-bar") := by
  refine ⟨by decide, by decide, by decide⟩

/-- C6 (amended): for every callback name `c` and function name `f` of a
compiled component whose normalized names are collision-free (distinct from
`__init__`, from every property's normalized name, from each other's
category as inserted earlier, unique within their own category, and not
shadowed by a global's raw name), the synthesized class binds the normalized
callback name to a property whose read yields a callable forwarding to
`instance.invoke(c, *args)` and whose assignment performs
`instance.set_callback(c, value)`, and binds the normalized function name to
a read-only property (no setter) whose read yields a callable forwarding to
`instance.invoke(f, *args)`. -/
theorem buildClass_callback_function_accessor {V : Type} (cd : ComponentDefinition)
    (c f : String) (inst : PyComponentInstance V) (value : V)
    (hc : c ∈ cd.callbacks) (hf : f ∈ cd.functions)
    (hcinit : normalize_prop c ≠ "__init__")
    (hcprops : ∀ p ∈ cd.properties, normalize_prop p ≠ normalize_prop c)
    (hcuniq : ∀ c' ∈ cd.callbacks, normalize_prop c' = normalize_prop c → c' = c)
    (hcglob : ∀ g ∈ cd.globals, g ≠ normalize_prop c)
    (hfinit : normalize_prop f ≠ "__init__")
    (hfprops : ∀ p ∈ cd.properties, normalize_prop p ≠ normalize_prop f)
    (hfcbs : ∀ c' ∈ cd.callbacks, normalize_prop c' ≠ normalize_prop f)
    (hfuniq : ∀ f' ∈ cd.functions, normalize_prop f' = normalize_prop f → f' = f)
    (hfglob : ∀ g ∈ cd.globals, g ≠ normalize_prop f) :
    ((buildClass cd).lookup (normalize_prop c) = some (ClassMember.callbackAccessor c) ∧
      memberGet inst (ClassMember.callbackAccessor c) =
        some (GetValue.callable (fun args => inst.invoke c args)) ∧
      memberSet (ClassMember.callbackAccessor c) value =
        some (SetEffect.set_callback c value)) ∧
    ((buildClass cd).lookup (normalize_prop f) = some (ClassMember.functionAccessor f) ∧
      memberGet inst (ClassMember.functionAccessor f) =
        some (GetValue.callable (fun args => inst.invoke f args)) ∧
      memberSet (ClassMember.functionAccessor f) value = none) := by
  constructor
  · refine ⟨?_, rfl, rfl⟩
    rw [buildClass_eq]
    rw [foldl_dictSet_id_other _ cd.globals hcglob]
    have h0 : (([("__init__", ClassMember.initMember)] : List (String × ClassMember))).lookup
        (normalize_prop c) = none := by
      rw [lookup_cons_ne _ _ hcinit]; rfl
    have h1 := foldl_insertIfAbsent_of_none normalize_prop ClassMember.propAccessor
      cd.properties hcprops h0
    have h2 := foldl_insertIfAbsent_lookup normalize_prop ClassMember.callbackAccessor
      cd.callbacks hc h1 (fun q hq he => by rw [hcuniq q hq he])
    exact foldl_insertIfAbsent_of_some normalize_prop ClassMember.functionAccessor
      cd.functions h2
  · refine ⟨?_, rfl, rfl⟩
    rw [buildClass_eq]
    rw [foldl_dictSet_id_other _ cd.globals hfglob]
    have h0 : (([("__init__", ClassMember.initMember)] : List (String × ClassMember))).lookup
        (normalize_prop f) = none := by
      rw [lookup_cons_ne _ _ hfinit]; rfl
    have h1 := foldl_insertIfAbsent_of_none normalize_prop ClassMember.propAccessor
      cd.properties hfprops h0
    have h2 := foldl_insertIfAbsent_of_none normalize_prop ClassMember.callbackAccessor
      cd.callbacks hfcbs h1
    exact foldl_insertIfAbsent_lookup normalize_prop ClassMember.functionAccessor
      cd.functions hf h2 (fun q hq he => by rw [hfuniq q hq he])

/-- C6 counterexample: with property table `["act"]` and callback table
`["act"]`, the class member under `act` is the property accessor, not the
callback accessor: reading it does not yield the invoke-forwarding callable
required by the claim for the callback name `act`. -/
theorem buildClass_callback_collision :
    "act" ∈ (ComponentDefinition.mk ["act"] ["act"] [] []).callbacks ∧
    (buildClass (ComponentDefinition.mk ["act"] ["act"] [] [])).lookup
        (normalize_prop "act") ≠ some (ClassMember.callbackAccessor "act") ∧
    (buildClass (ComponentDefinition.mk ["act"] ["act"] [] [])).lookup
        (normalize_prop "act") = some (ClassMember.propAccessor "act") := by
  refine ⟨by decide, by decide, by decide⟩

/-- Witness for the amended C2 theorem with a concrete component holding one
property and one global. -/
theorem buildClass_property_accessor_witness :
    (buildClass (ComponentDefinition.mk ["prop-a"] [] [] ["GlobalX"])).lookup
        (normalize_prop "prop-a") = some (ClassMember.propAccessor "prop-a") ∧
    memberGet (PyComponentInstance.mk (fun _ => (0 : Nat)) (fun _ _ => 1))
        (ClassMember.propAccessor "prop-a") =
      some (GetValue.plain
        ((PyComponentInstance.mk (fun _ => (0 : Nat)) (fun _ _ => 1)).get_property "prop-a")) ∧
    memberSet (ClassMember.propAccessor "prop-a") (7 : Nat) =
      some (SetEffect.set_property "prop-a" 7) :=
  buildClass_property_accessor _ "prop-a" _ 7 (by decide) (by decide) (by decide) (by decide)

/-- Witness for the amended C6 theorem with a concrete component holding one
property, one callback, one function and one global. -/
theorem buildClass_callback_function_accessor_witness :
    ((buildClass (ComponentDefinition.mk ["p1"] ["cb-x"] ["fn-y"] ["G"])).lookup
        (normalize_prop "cb-x") = some (ClassMember.callbackAccessor "cb-x") ∧
      memberGet (PyComponentInstance.mk (fun _ => (0 : Nat)) (fun _ _ => 1))
          (ClassMember.callbackAccessor "cb-x") =
        some (GetValue.callable (fun args =>
          (PyComponentInstance.mk (fun _ => (0 : Nat)) (fun _ _ => 1)).invoke "cb-x" args)) ∧
      memberSet (ClassMember.callbackAccessor "cb-x") (7 : Nat) =
        some (SetEffect.set_callback "cb-x" 7)) ∧
    ((buildClass (ComponentDefinition.mk ["p1"] ["cb-x"] ["fn-y"] ["G"])).lookup
        (normalize_prop "fn-y") = some (ClassMember.functionAccessor "fn-y") ∧
      memberGet (PyComponentInstance.mk (fun _ => (0 : Nat)) (fun _ _ => 1))
          (ClassMember.functionAccessor "fn-y") =
        some (GetValue.callable (fun args =>
          (PyComponentInstance.mk (fun _ => (0 : Nat)) (fun _ _ => 1)).invoke "fn-y" args)) ∧
      memberSet (ClassMember.functionAccessor "fn-y") (7 : Nat) = none) :=
  buildClass_callback_function_accessor _ "cb-x" "fn-y" _ 7 (by decide) (by decide)
    (by decide) (by decide) (by decide) (by decide) (by decide) (by decide) (by decide)
    (by decide) (by decide)

/-- C8 (amended): whenever the code-generator normalizer
`normalize_identifier` succeeds (non-empty input) and its result is not a
Python keyword, the runtime normalizer `_normalize_prop` computes the same
identifier.  (They disagree on Python keywords, where only the runtime
normalizer appends an underscore, and on the empty string, where the
code-generator normalizer raises `IndexError`.) -/
theorem normalize_prop_eq_normalize_identifier (s u : String)
    (h1 : normalize_identifier s = some u)
    (h2 : pythonKeywords.contains u = false) :
    normalize_prop s = u := by
  cases hd : (replaceDashUnderscore s).data with
  | nil =>
    simp only [normalize_identifier, hd] at h1
    exact Option.noConfusion h1
  | cons ch rest =>
    simp only [normalize_identifier, hd, Option.some.injEq] at h1
    simp only [normalize_prop, hd]
    rw [h1, h2]
    simp

/-- Witness for the amended C8 theorem at `s = "foo-bar"`. -/
theorem normalize_prop_eq_normalize_identifier_witness :
    normalize_prop "foo-bar" = "foo_bar" :=
  normalize_prop_eq_normalize_identifier "foo-bar" "foo_bar" (by decide) (by decide)

/-- C8 counterexample: on the input `"for"` the two normalizers disagree —
the runtime normalizer appends an underscore to Python keywords, the
code-generator normalizer does not. -/
theorem normalizer_disagreement :
    normalize_identifier "for" = some "for" ∧
    normalize_prop "for" = "for_" ∧
    normalize_identifier "for" ≠ some (normalize_prop "for") := by
  refine ⟨by decide, by decide, by decide⟩

/-! ### Counting lemmas for slice deletion -/

theorem countP_not_length {α : Type} (l : List α) (p : α → Bool) :
    l.countP (fun a => !(p a)) = l.length - l.countP p := by
  induction l with
  | nil => simp
  | cons a t ih =>
    have hle := List.countP_le_length (l := t) p
    by_cases h : p a = true <;> simp [List.countP_cons, h, ih] <;> omega

theorem countP_disjoint {α : Type} (l : List α) (p q : α → Bool)
    (h : ∀ x ∈ l, ¬(p x = true ∧ q x = true)) :
    l.countP (fun x => p x || q x) = l.countP p + l.countP q := by
  induction l with
  | nil => simp
  | cons a t ih =>
    have ha := h a (List.mem_cons_self a t)
    have iht := ih (fun x hx => h x (List.mem_cons_of_mem a hx))
    by_cases hp : p a = true
    · have hq : q a = false := by
        cases hqv : q a with
        | true => exact absurd ⟨hp, hqv⟩ ha
        | false => rfl
      simp [List.countP_cons, hp, hq, iht]
      omega
    · by_cases hq : q a = true <;> simp [List.countP_cons, hp, hq, iht] <;> omega

theorem countP_contains_nodup (sel : List Int) (n : Nat) (hnd : sel.Nodup)
    (hb : ∀ x ∈ sel, 0 ≤ x ∧ x < (n : Int)) :
    (List.range n).countP (fun (i : Nat) => sel.contains (i : Int)) = sel.length := by
  induction sel with
  | nil => simp
  | cons a rest ih =>
    have hnd' := List.nodup_cons.mp hnd
    have hb' : ∀ x ∈ rest, 0 ≤ x ∧ x < (n : Int) :=
      fun x hx => hb x (List.mem_cons_of_mem a hx)
    have ha := hb a (List.mem_cons_self a rest)
    have step1 : (List.range n).countP (fun (i : Nat) => (a :: rest).contains (i : Int)) =
        (List.range n).countP (fun (i : Nat) => ((i : Int) == a) || rest.contains (i : Int)) := by
      refine List.countP_congr (fun x _ => ?_)
      simp [List.contains_cons]
    rw [step1, countP_disjoint]
    · have hone : (List.range n).countP (fun (i : Nat) => ((i : Int) == a)) = 1 := by
        have hc : (List.range n).countP (fun (i : Nat) => ((i : Int) == a)) =
            (List.range n).countP (fun (i : Nat) => (i == a.toNat)) := by
          refine List.countP_congr (fun x _ => ?_)
          simp only [beq_iff_eq]
          constructor
          · intro hx; omega
          · intro hx; omega
        rw [hc]
        exact List.count_eq_one_of_mem (List.nodup_range n)
          (List.mem_range.mpr (by omega))
      rw [hone, ih hnd'.2 hb']
      simp [List.length_cons]
      omega
    · intro x _ hx
      obtain ⟨hx1, hx2⟩ := hx
      have : (x : Int) = a := by simpa using hx1
      apply hnd'.1
      have : a ∈ rest := by
        rw [← this]
        simpa using hx2
      exact this

theorem pyDelIndices_length {T : Type} (xs : List T) (sel : List Int) :
    (pyDelIndices xs sel).length =
      xs.length - (List.range xs.length).countP (fun (i : Nat) => sel.contains (i : Int)) := by
  unfold pyDelIndices
  rw [List.length_map, ← List.countP_eq_length_filter, countP_not_length, List.enum_length]
  congr 1
  have h1 : (List.range xs.length).countP (fun (i : Nat) => sel.contains (i : Int)) =
      (xs.enum.map Prod.fst).countP (fun (i : Nat) => sel.contains (i : Int)) := by
    rw [List.enum_map_fst]
  rw [h1, List.countP_map]
  rfl

/-! ### Properties of the embedded `range` -/

theorem rangeList_length (start stop step : Int) :
    (rangeList start stop step).length = rangeLength start stop step := by
  simp [rangeList]

theorem rangeList_nodup {start stop step : Int} (h : step ≠ 0) :
    (rangeList start stop step).Nodup := by
  unfold rangeList
  refine List.Nodup.map ?_ (List.nodup_range _)
  intro k1 k2 he
  have he' : start + step * (k1 : Int) = start + step * (k2 : Int) := he
  have h2 : step * (k1 : Int) = step * (k2 : Int) := by omega
  have h3 : (k1 : Int) = (k2 : Int) := mul_left_cancel₀ h h2
  exact_mod_cast h3

theorem rangeList_mem_pos {start stop step x : Int} (hstep : 0 < step)
    (hx : x ∈ rangeList start stop step) : start ≤ x ∧ x < stop := by
  unfold rangeList at hx
  obtain ⟨k, hk, rfl⟩ := List.mem_map.mp hx
  have hk' : k < rangeLength start stop step := List.mem_range.mp hk
  unfold rangeLength at hk'
  rw [if_pos hstep] at hk'
  by_cases hss : start < stop
  · rw [if_pos hss] at hk'
    set q : Nat := (stop - start - 1).toNat / step.toNat with hq
    have hstep' : ((step.toNat : Int)) = step := Int.toNat_of_nonneg hstep.le
    have hd : (((stop - start - 1).toNat : Int)) = stop - start - 1 :=
      Int.toNat_of_nonneg (by omega)
    have h1 : q * step.toNat ≤ (stop - start - 1).toNat := Nat.div_mul_le_self _ _
    have h1c : (q : Int) * ((step.toNat : Int)) ≤ (((stop - start - 1).toNat : Int)) := by
      exact_mod_cast h1
    rw [hstep', hd] at h1c
    have hkq : (k : Int) ≤ (q : Int) := by exact_mod_cast Nat.le_of_lt_succ hk'
    have h2 : step * (k : Int) ≤ step * (q : Int) :=
      mul_le_mul_of_nonneg_left hkq hstep.le
    have h3 : 0 ≤ step * (k : Int) := mul_nonneg hstep.le (Int.natCast_nonneg k)
    have h4 : step * (q : Int) ≤ stop - start - 1 := by
      rw [mul_comm]
      exact h1c
    exact ⟨by omega, by omega⟩
  · rw [if_neg hss] at hk'
    omega

theorem rangeList_mem_neg {start stop step x : Int} (hstep : step < 0)
    (hx : x ∈ rangeList start stop step) : stop < x ∧ x ≤ start := by
  unfold rangeList at hx
  obtain ⟨k, hk, rfl⟩ := List.mem_map.mp hx
  have hk' : k < rangeLength start stop step := List.mem_range.mp hk
  unfold rangeLength at hk'
  rw [if_neg (by omega)] at hk'
  by_cases hss : stop < start
  · rw [if_pos hss] at hk'
    set q : Nat := (start - stop - 1).toNat / (-step).toNat with hq
    have hstep' : (((-step).toNat : Int)) = -step := Int.toNat_of_nonneg (by omega)
    have hd : (((start - stop - 1).toNat : Int)) = start - stop - 1 :=
      Int.toNat_of_nonneg (by omega)
    have h1 : q * (-step).toNat ≤ (start - stop - 1).toNat := Nat.div_mul_le_self _ _
    have h1c : (q : Int) * (((-step).toNat : Int)) ≤ (((start - stop - 1).toNat : Int)) := by
      exact_mod_cast h1
    rw [hstep', hd] at h1c
    have hkq : (k : Int) ≤ (q : Int) := by exact_mod_cast Nat.le_of_lt_succ hk'
    have h2 : (-step) * (k : Int) ≤ (-step) * (q : Int) :=
      mul_le_mul_of_nonneg_left hkq (by omega)
    have h3 : 0 ≤ (-step) * (k : Int) := mul_nonneg (by omega) (Int.natCast_nonneg k)
    have h4 : (-step) * (q : Int) ≤ start - stop - 1 := by
      rw [mul_comm]
      exact h1c
    have h5 : step * (k : Int) = -((-step) * (k : Int)) := by ring
    have h6 : step * (q : Int) = -((-step) * (q : Int)) := by ring
    exact ⟨by omega, by omega⟩
  · rw [if_neg hss] at hk'
    omega

theorem adjustIndex_pos_bounds {step L v : Int} (hs : 0 < step) (hL : 0 ≤ L) :
    0 ≤ adjustIndex step L v ∧ adjustIndex step L v ≤ L := by
  unfold adjustIndex
  split_ifs <;> omega

theorem adjustIndex_neg_bounds {step L v : Int} (hs : step < 0) (hL : 0 ≤ L) :
    -1 ≤ adjustIndex step L v ∧ adjustIndex step L v ≤ L - 1 := by
  unfold adjustIndex
  split_ifs <;> omega

theorem sliceIndices_ok {s : PySlice} {L : Nat} {start stop step : Int}
    (h : sliceIndices s L = Except.ok (start, stop, step)) :
    step ≠ 0 ∧
    (0 < step → 0 ≤ start ∧ start ≤ (L : Int) ∧ stop ≤ (L : Int)) ∧
    (step < 0 → -1 ≤ stop ∧ start ≤ (L : Int) - 1) := by
  simp only [sliceIndices] at h
  split at h
  · exact absurd h (by simp)
  · rename_i hz
    simp only [Except.ok.injEq, Prod.mk.injEq] at h
    obtain ⟨h1, h2, h3⟩ := h
    subst h1
    subst h2
    subst h3
    refine ⟨hz, fun hp => ?_, fun hn => ?_⟩
    · obtain ⟨b1, b2⟩ := adjustIndex_pos_bounds (v := s.start.getD
        (if s.step.getD 1 < 0 then (L : Int) else 0)) hp (Int.natCast_nonneg L)
      obtain ⟨c1, c2⟩ := adjustIndex_pos_bounds (v := s.stop.getD
        (if s.step.getD 1 < 0 then -(L : Int) - 1 else (L : Int))) hp (Int.natCast_nonneg L)
      exact ⟨b1, b2, c2⟩
    · obtain ⟨b1, b2⟩ := adjustIndex_neg_bounds (v := s.start.getD
        (if s.step.getD 1 < 0 then (L : Int) else 0)) hn (Int.natCast_nonneg L)
      obtain ⟨c1, c2⟩ := adjustIndex_neg_bounds (v := s.stop.getD
        (if s.step.getD 1 < 0 then -(L : Int) - 1 else (L : Int))) hn (Int.natCast_nonneg L)
      exact ⟨c1, b2⟩

theorem pyDelIndices_slice_length {T : Type} (xs : List T) {start stop step : Int}
    (hstep : step ≠ 0)
    (hb : ∀ x ∈ rangeList start stop step, 0 ≤ x ∧ x < (xs.length : Int)) :
    (pyDelIndices xs (rangeList start stop step)).length =
      xs.length - rangeLength start stop step ∧
    rangeLength start stop step ≤ xs.length := by
  have hc := countP_contains_nodup (rangeList start stop step) xs.length
    (rangeList_nodup hstep) hb
  rw [rangeList_length] at hc
  have hl := pyDelIndices_length xs (rangeList start stop step)
  rw [hc] at hl
  have hle : rangeLength start stop step ≤ xs.length := by
    rw [← hc]
    have hcl := List.countP_le_length
      (fun (i : Nat) => (rangeList start stop step).contains (i : Int))
      (l := List.range xs.length)
    simpa using hcl
  exact ⟨hl, hle⟩

theorem pyListSetItem_natCast {T : Type} (xs : List T) (row : Nat) (v : T)
    (h : row < xs.length) :
    pyListSetItem xs (row : Int) v = Except.ok (xs.set row v) := by
  simp only [pyListSetItem]
  have h0 : ¬((row : Int) < 0) := by omega
  rw [if_neg h0, if_pos (by constructor <;> omega)]
  have ht : ((row : Int)).toNat = row := by omega
  rw [ht]

theorem pyListDelItem_natCast {T : Type} (xs : List T) (i : Nat)
    (h : i < xs.length) :
    pyListDelItem xs (i : Int) = Except.ok (xs.eraseIdx i) := by
  simp only [pyListDelItem]
  have h0 : ¬((i : Int) < 0) := by omega
  rw [if_neg h0, if_pos (by constructor <;> omega)]
  have ht : ((i : Int)).toNat = i := by omega
  rw [ht]

/-! ### Claim theorems about models.py -/

/-- C3: every mutating operation of `ListModel` emits exactly the matching
notification: `append` adds at the end and notifies `row_added(old_length, 1)`;
`set_row_data(row, data)` (for a valid row) stores `data` at `row` and
notifies `row_changed(row)`; deleting a valid integer index `i` notifies
`row_removed(i, 1)`; deleting a slice removes exactly the selected elements
and notifies `row_removed(start, n)` where `n` equals the number of removed
elements. -/
theorem listModel_mutation_notifications {T : Type} (xs : List T) (value data : T)
    (row i : Nat) (s : PySlice) (hrow : row < xs.length) (hi : i < xs.length) :
    listModel_append xs value =
      (xs ++ [value], ModelNotification.row_added (xs.length : Int) 1) ∧
    listModel_set_row_data xs (row : Int) data =
      Except.ok (xs.set row data, ModelNotification.row_changed (row : Int)) ∧
    listModel_delitem xs (DelKey.int (i : Int)) =
      Except.ok (xs.eraseIdx i, ModelNotification.row_removed (i : Int) 1) ∧
    (∀ start stop step : Int, sliceIndices s xs.length = Except.ok (start, stop, step) →
      listModel_delitem xs (DelKey.slice s) =
        Except.ok (pyDelIndices xs (rangeList start stop step),
          ModelNotification.row_removed start (rangeLength start stop step)) ∧
      rangeLength start stop step =
        xs.length - (pyDelIndices xs (rangeList start stop step)).length) := by
  refine ⟨rfl, ?_, ?_, ?_⟩
  · simp only [listModel_set_row_data, pyListSetItem_natCast xs row data hrow]
  · simp only [listModel_delitem, pyListDelItem_natCast xs i hi]
  · intro start stop step h
    obtain ⟨hstep, hpos, hneg⟩ := sliceIndices_ok h
    have hb : ∀ x ∈ rangeList start stop step, 0 ≤ x ∧ x < (xs.length : Int) := by
      intro x hx
      rcases lt_trichotomy step 0 with h1 | h1 | h1
      · have hm := rangeList_mem_neg h1 hx
        have hh := hneg h1
        omega
      · exact absurd h1 hstep
      · have hm := rangeList_mem_pos h1 hx
        have hh := hpos h1
        omega
    have hdel := pyDelIndices_slice_length xs hstep hb
    constructor
    · simp only [listModel_delitem, h]
    · omega

/-- Witness for the C3 theorem at `xs = [10, 11, 12]`, `row = 1`, `i = 2`,
slice `0:2`. -/
theorem listModel_mutation_notifications_witness :
    listModel_append [10, 11, 12] 13 =
      ([10, 11, 12, 13], ModelNotification.row_added ((3 : Nat) : Int) 1) ∧
    listModel_set_row_data [10, 11, 12] ((1 : Nat) : Int) 99 =
      Except.ok ([10, 11, 12].set 1 99, ModelNotification.row_changed ((1 : Nat) : Int)) ∧
    listModel_delitem [10, 11, 12] (DelKey.int ((2 : Nat) : Int)) =
      Except.ok ([10, 11, 12].eraseIdx 2, ModelNotification.row_removed ((2 : Nat) : Int) 1) ∧
    (∀ start stop step : Int,
      sliceIndices (PySlice.mk (some 0) (some 2) none) 3 = Except.ok (start, stop, step) →
      listModel_delitem [10, 11, 12] (DelKey.slice (PySlice.mk (some 0) (some 2) none)) =
        Except.ok (pyDelIndices [10, 11, 12] (rangeList start stop step),
          ModelNotification.row_removed start (rangeLength start stop step)) ∧
      rangeLength start stop step =
        3 - (pyDelIndices [10, 11, 12] (rangeList start stop step)).length) :=
  listModel_mutation_notifications [10, 11, 12] 13 99 1 2
    (PySlice.mk (some 0) (some 2) none) (by decide) (by decide)

/-- C5: the `Model` base class is a faithful adapter over its three hooks:
`__len__` returns `row_count()`, `__getitem__` returns `row_data(index)`,
and `__setitem__` performs `set_row_data(index, value)`; the hook record is
fully abstract, so no other state can be consulted. -/
theorem model_dunder_delegation {T ρ δ ε : Type} (m : ModelHooks T ρ δ ε)
    (index : Int) (value : T) :
    Model_len m = m.row_count () ∧
    Model_getitem m index = m.row_data index ∧
    Model_setitem m index value = m.set_row_data index value :=
  ⟨rfl, rfl, rfl⟩

theorem iterFrom_listRowData {T : Type} (xs : List T) :
    ∀ (fuel ix : Nat), xs.length - ix = fuel →
      iterFrom xs.length (listRowData xs) ix = some (xs.drop ix) := by
  intro fuel
  induction fuel with
  | zero =>
    intro ix hfx
    rw [iterFrom, dif_neg (by omega), List.drop_eq_nil_of_le (by omega)]
  | succ n ih =>
    intro ix hfx
    have hlt : ix < xs.length := by omega
    rw [iterFrom, dif_pos hlt]
    have hrd : listRowData xs ix = some xs[ix] := by
      unfold listRowData
      exact List.getElem?_eq_getElem hlt
    rw [hrd, ih (ix + 1) (by omega)]
    rw [List.drop_eq_getElem_cons hlt]
    rfl

/-- C9: iterating a freshly constructed `ListModel` backed by the list `xs`
yields exactly the elements of `xs` in order; every `row_data` read the
iterator performs is in range (an out-of-range read would surface as
`none`). -/
theorem listModel_iterate_roundtrip {T : Type} (xs : List T) :
    iterFrom xs.length (listRowData xs) 0 = some xs := by
  have h := iterFrom_listRowData xs xs.length 0 (by omega)
  simpa using h

theorem structSetAttr_keys {V : Type} (inst : List (String × V)) (k : String) (v : V) :
    (structSetAttr inst k v).map Prod.fst = inst.map Prod.fst := by
  unfold structSetAttr
  rw [List.map_map]
  refine List.map_congr_left (fun p _ => ?_)
  by_cases h : p.1 = k <;> simp [h]

theorem lookup_eq_none_of_not_mem_keys {V : Type} {l : List (String × V)} {k : String}
    (h : k ∉ l.map Prod.fst) : l.lookup k = none := by
  induction l with
  | nil => rfl
  | cons a rest ih =>
    obtain ⟨a1, a2⟩ := a
    have h1 : k ≠ a1 := by
      intro he
      exact h (by simp [he])
    rw [lookup_cons_ne _ _ h1]
    exact ih (fun hm => h (by simp [hm]))

theorem lookup_isSome_of_mem_keys {V : Type} {l : List (String × V)} {k : String}
    (h : k ∈ l.map Prod.fst) : (l.lookup k).isSome := by
  induction l with
  | nil => simp at h
  | cons a rest ih =>
    obtain ⟨a1, a2⟩ := a
    by_cases h1 : k = a1
    · subst h1
      rw [lookup_cons_self]
      rfl
    · rw [lookup_cons_ne _ _ h1]
      refine ih ?_
      simp only [List.map_cons] at h
      cases h with
      | head => exact absurd rfl h1
      | tail _ hm => exact hm

theorem foldl_structSetAttr_lookup {V : Type} (kwargs : List (String × V)) :
    ∀ (inst : List (String × V)) (f : String),
      (kwargs.map Prod.fst).Nodup →
      (∀ k ∈ kwargs.map Prod.fst, k ∈ inst.map Prod.fst) →
      (kwargs.foldl (fun i kv => structSetAttr i kv.1 kv.2) inst).lookup f =
        ((kwargs.lookup f).orElse (fun _ => inst.lookup f)) := by
  induction kwargs with
  | nil =>
    intro inst f _ _
    simp [Option.orElse]
  | cons kv rest ih =>
    intro inst f hnd hsub
    obtain ⟨k, v⟩ := kv
    simp only [List.map_cons, List.nodup_cons] at hnd
    have hk_mem : k ∈ inst.map Prod.fst := hsub k (by simp)
    have hsub' : ∀ k' ∈ rest.map Prod.fst, k' ∈ (structSetAttr inst k v).map Prod.fst := by
      intro k' hk'
      rw [structSetAttr_keys]
      exact hsub k' (by simp [hk'])
    rw [List.foldl_cons, ih (structSetAttr inst k v) f hnd.2 hsub']
    by_cases hf : f = k
    · subst hf
      rw [lookup_cons_self]
      have hrest : rest.lookup f = none := lookup_eq_none_of_not_mem_keys hnd.1
      rw [hrest]
      have hset : (structSetAttr inst f v).lookup f = some v := by
        unfold structSetAttr
        rw [lookup_map_override]
        rw [if_pos (lookup_isSome_of_mem_keys hk_mem)]
      rw [hset]
      rfl
    · rw [lookup_cons_ne _ _ hf]
      have hset : (structSetAttr inst k v).lookup f = inst.lookup f := by
        unfold structSetAttr
        exact lookup_map_override_other _ _ hf
      rw [hset]

/-- C10: the struct wrapper's `__new__` raises `TypeError` exactly when a
positional argument is passed or a keyword argument is not a field of the
prototype; on success it returns the prototype's fields with exactly the
given keyword fields reassigned (`kwargs` keys are distinct, as guaranteed
by Python call syntax).  The shared prototype is copied before any
assignment, so it is never mutated. -/
theorem buildStruct_new_spec {V : Type} (proto : List (String × V))
    (args : List V) (kwargs : List (String × V))
    (hnd : (kwargs.map Prod.fst).Nodup) :
    (buildStructNew proto args kwargs = Except.error PyExc.typeError ↔
      args ≠ [] ∨ ∃ k ∈ kwargs.map Prod.fst, k ∉ proto.map Prod.fst) ∧
    (∀ r, buildStructNew proto args kwargs = Except.ok r →
      ∀ f, r.lookup f = ((kwargs.lookup f).orElse (fun _ => proto.lookup f))) := by
  by_cases ha : args = []
  case neg =>
    have hne : args.isEmpty = false := by
      cases args with
      | nil => exact absurd rfl ha
      | cons a t => rfl
    have heval : buildStructNew proto args kwargs = Except.error PyExc.typeError := by
      unfold buildStructNew
      rw [if_pos hne]
    rw [heval]
    refine ⟨⟨fun _ => Or.inl ha, fun _ => rfl⟩, ?_⟩
    intro r hr
    exact absurd hr (by simp)
  case pos =>
    subst ha
    have hunex0 : (kwargs.map Prod.fst).filter
        (fun k => !((proto.map Prod.fst).contains k)) = [] ↔
        ∀ k ∈ kwargs.map Prod.fst, k ∈ proto.map Prod.fst := by
      rw [List.filter_eq_nil_iff]
      constructor
      · intro h k hk
        have hh := h k hk
        simpa using hh
      · intro h k hk
        simpa using h k hk
    by_cases hu : (kwargs.map Prod.fst).filter
        (fun k => !((proto.map Prod.fst).contains k)) = []
    case pos =>
      have heval : buildStructNew proto ([] : List V) kwargs =
          Except.ok (kwargs.foldl (fun i kv => structSetAttr i kv.1 kv.2) proto) := by
        unfold buildStructNew
        rw [if_neg (by simp), if_neg (fun hcon => hcon hu)]
      rw [heval]
      refine ⟨?_, ?_⟩
      · constructor
        · intro h
          exact absurd h (by simp)
        · intro h
          rcases h with h | ⟨k, hk, hnm⟩
          · exact absurd rfl h
          · exact absurd ((hunex0.mp hu) k hk) hnm
      · intro r hr f
        have hfold := Except.ok.inj hr
        rw [← hfold]
        exact foldl_structSetAttr_lookup kwargs proto f hnd (hunex0.mp hu)
    case neg =>
      have heval : buildStructNew proto ([] : List V) kwargs =
          Except.error PyExc.typeError := by
        unfold buildStructNew
        rw [if_neg (by simp), if_pos hu]
      rw [heval]
      refine ⟨⟨fun _ => ?_, fun _ => rfl⟩, ?_⟩
      · refine Or.inr ?_
        have hno : ¬ ∀ k ∈ kwargs.map Prod.fst, k ∈ proto.map Prod.fst :=
          fun hall => hu (hunex0.mpr hall)
        push_neg at hno
        exact hno
      · intro r hr
        exact absurd hr (by simp)

/-- Witness for the C10 theorem on a two-field prototype with one keyword
assignment. -/
theorem buildStruct_new_spec_witness :
    (buildStructNew [("a", 1), ("b", 2)] ([] : List Nat) [("b", 9)] =
        Except.error PyExc.typeError ↔
      ([] : List Nat) ≠ [] ∨
        ∃ k ∈ [("b", 9)].map Prod.fst, k ∉ ([("a", 1), ("b", 2)]).map Prod.fst) ∧
    (∀ r, buildStructNew [("a", 1), ("b", 2)] ([] : List Nat) [("b", 9)] = Except.ok r →
      ∀ f, r.lookup f =
        (([("b", 9)].lookup f).orElse (fun _ => ([("a", 1), ("b", 2)]).lookup f))) :=
  buildStruct_new_spec [("a", 1), ("b", 2)] [] [("b", 9)] (by decide)

/-! ### Lemmas about the namespace folds -/

theorem foldl_dictSet_keyf_other {α β : Type} (keyf : α → String) (valf : α → β)
    (xs : List α) {d : List (String × β)} {k : String}
    (hks : ∀ x ∈ xs, keyf x ≠ k) :
    (xs.foldl (fun d x => dictSet d (keyf x) (valf x)) d).lookup k = d.lookup k := by
  induction xs generalizing d with
  | nil => rfl
  | cons x rest ih =>
    rw [List.foldl_cons, ih (fun y hy => hks y (List.mem_cons_of_mem x hy)),
      lookup_dictSet_other _ _ (Ne.symm (hks x (List.mem_cons_self x rest)))]

theorem foldl_dictSet_preserve_value {α β : Type} (keyf : α → String) (valf : α → β)
    (xs : List α) {d : List (String × β)} {k : String} {v : β}
    (hd : d.lookup k = some v)
    (hval : ∀ x ∈ xs, keyf x = k → valf x = v) :
    (xs.foldl (fun d x => dictSet d (keyf x) (valf x)) d).lookup k = some v := by
  induction xs generalizing d with
  | nil => exact hd
  | cons x rest ih =>
    rw [List.foldl_cons]
    refine ih ?_ (fun y hy => hval y (List.mem_cons_of_mem x hy))
    by_cases hx : keyf x = k
    · rw [hx, hval x (List.mem_cons_self x rest) hx]
      exact lookup_dictSet_self _ _ _
    · rw [lookup_dictSet_other _ _ (fun he => hx he.symm)]
      exact hd

theorem foldl_dictSet_lookup {α β : Type} (keyf : α → String) (valf : α → β)
    (xs : List α) {d : List (String × β)} {x₀ : α}
    (hmem : x₀ ∈ xs)
    (huniq : ∀ x ∈ xs, keyf x = keyf x₀ → valf x = valf x₀) :
    (xs.foldl (fun d x => dictSet d (keyf x) (valf x)) d).lookup (keyf x₀) =
      some (valf x₀) := by
  induction xs generalizing d with
  | nil => cases hmem
  | cons x rest ih =>
    rw [List.foldl_cons]
    by_cases hx : keyf x = keyf x₀
    · refine foldl_dictSet_preserve_value keyf valf rest ?_
        (fun y hy => huniq y (List.mem_cons_of_mem x hy))
      rw [hx, huniq x (List.mem_cons_self x rest) hx]
      exact lookup_dictSet_self _ _ _
    · have hmem' : x₀ ∈ rest := by
        cases hmem with
        | head => exact absurd rfl hx
        | tail _ h' => exact h'
      exact ih hmem' (fun y hy => huniq y (List.mem_cons_of_mem x hy))

theorem components_fold_other {E S : Type} (component : String → Option ComponentDefinition)
    (names : List String) {d : List (String × NsValue E S)} {k : String}
    (hks : ∀ n ∈ names, n ≠ k) :
    (names.foldl (fun m comp_name =>
      match component comp_name with
      | none => m
      | some comp => dictSet m comp_name (NsValue.componentClass (buildClass comp))) d).lookup k
      = d.lookup k := by
  induction names generalizing d with
  | nil => rfl
  | cons n rest ih =>
    rw [List.foldl_cons, ih (fun y hy => hks y (List.mem_cons_of_mem n hy))]
    cases hcn : component n with
    | none => simp only [hcn]
    | some comp =>
      simp only [hcn]
      exact lookup_dictSet_other _ _ (Ne.symm (hks n (List.mem_cons_self n rest)))

theorem components_fold_preserve_value {E S : Type}
    (component : String → Option ComponentDefinition) (names : List String)
    {d : List (String × NsValue E S)} {n₀ : String} {comp : ComponentDefinition}
    (hc : component n₀ = some comp)
    (hd : d.lookup n₀ = some (NsValue.componentClass (buildClass comp))) :
    (names.foldl (fun m comp_name =>
      match component comp_name with
      | none => m
      | some c => dictSet m comp_name (NsValue.componentClass (buildClass c))) d).lookup n₀
      = some (NsValue.componentClass (buildClass comp)) := by
  induction names generalizing d with
  | nil => exact hd
  | cons n rest ih =>
    rw [List.foldl_cons]
    refine ih ?_
    cases hcn : component n with
    | none => simp only [hcn]; exact hd
    | some c =>
      simp only [hcn]
      by_cases hn : n = n₀
      · subst hn
        rw [hc] at hcn
        have hcc : c = comp := (Option.some.inj hcn).symm
        subst hcc
        exact lookup_dictSet_self _ _ _
      · rw [lookup_dictSet_other _ _ (fun he => hn he.symm)]
        exact hd

theorem components_fold_lookup {E S : Type}
    (component : String → Option ComponentDefinition) (names : List String)
    {d : List (String × NsValue E S)} {n₀ : String} {comp : ComponentDefinition}
    (hmem : n₀ ∈ names) (hc : component n₀ = some comp) :
    (names.foldl (fun m comp_name =>
      match component comp_name with
      | none => m
      | some c => dictSet m comp_name (NsValue.componentClass (buildClass c))) d).lookup n₀
      = some (NsValue.componentClass (buildClass comp)) := by
  induction names generalizing d with
  | nil => cases hmem
  | cons n rest ih =>
    rw [List.foldl_cons]
    by_cases hn : n = n₀
    · subst hn
      refine components_fold_preserve_value component rest hc ?_
      simp only [hc]
      exact lookup_dictSet_self _ _ _
    · have hmem' : n₀ ∈ rest := by
        cases hmem with
        | head => exact absurd rfl hn
        | tail _ h' => exact h'
      exact ih hmem'

theorem applyNamedExports_ok {E S : Type} (exports : List (String × String)) :
    ∀ (m : List (String × NsValue E S)),
      (∀ oe ∈ exports, (m.lookup (normalize_prop oe.1)).isSome) →
      ∃ ns, applyNamedExports exports m = Except.ok ns := by
  induction exports with
  | nil => exact fun m _ => ⟨m, rfl⟩
  | cons oe rest ih =>
    intro m h1
    obtain ⟨v, hv⟩ := Option.isSome_iff_exists.mp (h1 oe (List.mem_cons_self oe rest))
    have h1' : ∀ oe' ∈ rest,
        (((dictSet m (normalize_prop oe.2) v).lookup (normalize_prop oe'.1))).isSome := by
      intro oe' hoe'
      by_cases hk : normalize_prop oe'.1 = normalize_prop oe.2
      · rw [hk, lookup_dictSet_self]
        rfl
      · rw [lookup_dictSet_other _ _ hk]
        exact h1 oe' (List.mem_cons_of_mem oe hoe')
    obtain ⟨ns, hns⟩ := ih (dictSet m (normalize_prop oe.2) v) h1'
    refine ⟨ns, ?_⟩
    unfold applyNamedExports
    rw [hv]
    exact hns

theorem applyNamedExports_no_compileError {E S : Type} (exports : List (String × String)) :
    ∀ (m : List (String × NsValue E S)) (ce : CompileError),
      applyNamedExports exports m ≠ Except.error (LoadError.compileError ce) := by
  induction exports with
  | nil =>
    intro m ce h
    exact Except.noConfusion h
  | cons oe rest ih =>
    intro m ce h
    unfold applyNamedExports at h
    cases hv : m.lookup (normalize_prop oe.1) with
    | none =>
      rw [hv] at h
      have := Except.error.inj h
      exact LoadError.noConfusion this
    | some v =>
      rw [hv] at h
      exact ih _ ce h

theorem applyNamedExports_spec {E S : Type} (exports : List (String × String)) :
    ∀ (m : List (String × NsValue E S)),
      (∀ oe ∈ exports, (m.lookup (normalize_prop oe.1)).isSome) →
      (∀ oe ∈ exports, ∀ oe' ∈ exports, normalize_prop oe.1 ≠ normalize_prop oe'.2) →
      ((exports.map (fun oe => normalize_prop oe.2)).Nodup) →
      ∃ ns, applyNamedExports exports m = Except.ok ns ∧
        (∀ k, (∀ oe ∈ exports, k ≠ normalize_prop oe.2) → ns.lookup k = m.lookup k) ∧
        (∀ oe ∈ exports,
          ns.lookup (normalize_prop oe.2) = m.lookup (normalize_prop oe.1)) := by
  induction exports with
  | nil =>
    intro m _ _ _
    exact ⟨m, rfl, fun k _ => rfl, fun oe hoe => absurd hoe (List.not_mem_nil oe)⟩
  | cons oe rest ih =>
    intro m h1 h2 h3
    obtain ⟨v, hv⟩ := Option.isSome_iff_exists.mp (h1 oe (List.mem_cons_self oe rest))
    simp only [List.map_cons, List.nodup_cons] at h3
    have h1' : ∀ oe' ∈ rest,
        (((dictSet m (normalize_prop oe.2) v).lookup (normalize_prop oe'.1))).isSome := by
      intro oe' hoe'
      have hk : normalize_prop oe'.1 ≠ normalize_prop oe.2 :=
        h2 oe' (List.mem_cons_of_mem oe hoe') oe (List.mem_cons_self oe rest)
      rw [lookup_dictSet_other _ _ hk]
      exact h1 oe' (List.mem_cons_of_mem oe hoe')
    have h2' : ∀ oe' ∈ rest, ∀ oe'' ∈ rest,
        normalize_prop oe'.1 ≠ normalize_prop oe''.2 :=
      fun oe' hoe' oe'' hoe'' =>
        h2 oe' (List.mem_cons_of_mem oe hoe') oe'' (List.mem_cons_of_mem oe hoe'')
    obtain ⟨ns, hns, hpres, halias⟩ := ih (dictSet m (normalize_prop oe.2) v) h1' h2' h3.2
    refine ⟨ns, ?_, ?_, ?_⟩
    · unfold applyNamedExports
      rw [hv]
      exact hns
    · intro k hk
      have hk2 : k ≠ normalize_prop oe.2 := hk oe (List.mem_cons_self oe rest)
      rw [hpres k (fun oe' hoe' => hk oe' (List.mem_cons_of_mem oe hoe')),
        lookup_dictSet_other _ _ hk2]
    · intro oe' hoe'
      cases hoe' with
      | head =>
        have hnotin : ∀ oe'' ∈ rest, normalize_prop oe.2 ≠ normalize_prop oe''.2 := by
          intro oe'' hoe'' he
          exact h3.1 (by
            rw [he]
            exact List.mem_map_of_mem (fun x => normalize_prop x.2) hoe'')
        rw [hpres (normalize_prop oe.2) hnotin, lookup_dictSet_self, hv]
      | tail _ h' =>
        have hk : normalize_prop oe'.1 ≠ normalize_prop oe.2 :=
          h2 oe' (List.mem_cons_of_mem oe h') oe (List.mem_cons_self oe rest)
        rw [halias oe' h', lookup_dictSet_other _ _ hk]

theorem loadFile_errors_eq {E S : Type} (result : CompilationResult E S) :
    (if result.diagnostics.isEmpty = false then
      result.diagnostics.filter (fun d => d.level == DiagnosticLevel.Error)
    else []) = result.diagnostics.filter (fun d => d.level == DiagnosticLevel.Error) := by
  cases result.diagnostics with
  | nil => simp
  | cons d rest => rfl

theorem filter_error_ne_nil_iff (l : List PyDiagnostic) :
    l.filter (fun d => d.level == DiagnosticLevel.Error) ≠ [] ↔
      ∃ d ∈ l, d.level = DiagnosticLevel.Error := by
  rw [ne_eq, List.filter_eq_nil_iff]
  constructor
  · intro h
    by_contra hno
    push_neg at hno
    exact h (fun d hd => by simp [hno d hd])
  · intro ⟨d, hd, hl⟩ h
    have := h d hd
    simp [hl] at this

/-- C1: `load_file` raises `CompileError` exactly when the diagnostics for
the path contain an error-level diagnostic, and the raised `CompileError`
carries the full diagnostics list; with no error-level diagnostic (warnings
alone) no `CompileError` is ever raised, and — provided every named export's
original name resolves in the built namespace, which the native compiler
guarantees for well-formed results — a namespace is returned normally. -/
theorem loadFile_error_handling {E S : Type} (path : String)
    (result : CompilationResult E S) :
    ((∃ d ∈ result.diagnostics, d.level = DiagnosticLevel.Error) →
      loadFile path result = Except.error (LoadError.compileError
        (CompileError.mk ("Could not compile " ++ path) result.diagnostics))) ∧
    ((∀ d ∈ result.diagnostics, d.level ≠ DiagnosticLevel.Error) →
      ∀ ce, loadFile path result ≠ Except.error (LoadError.compileError ce)) ∧
    ((∀ d ∈ result.diagnostics, d.level ≠ DiagnosticLevel.Error) →
      (∀ oe ∈ result.named_exports,
        ((buildNamespaceBase result).lookup (normalize_prop oe.1)).isSome) →
      ∃ ns, loadFile path result = Except.ok ns) := by
  refine ⟨?_, ?_, ?_⟩
  · intro herr
    simp only [loadFile]
    rw [loadFile_errors_eq]
    have hne : result.diagnostics.filter (fun d => d.level == DiagnosticLevel.Error) ≠ [] :=
      (filter_error_ne_nil_iff result.diagnostics).mpr herr
    have hemp : (result.diagnostics.filter
        (fun d => d.level == DiagnosticLevel.Error)).isEmpty = false := by
      cases hf : result.diagnostics.filter (fun d => d.level == DiagnosticLevel.Error) with
      | nil => exact absurd hf hne
      | cons a t => rfl
    rw [if_pos hemp]
  · intro hno ce
    simp only [loadFile]
    rw [loadFile_errors_eq]
    have hnil : result.diagnostics.filter (fun d => d.level == DiagnosticLevel.Error) = [] := by
      by_contra hne
      obtain ⟨d, hd, hl⟩ := (filter_error_ne_nil_iff result.diagnostics).mp hne
      exact hno d hd hl
    rw [hnil]
    simp only [List.isEmpty_nil, Bool.true_eq_false, if_false, reduceIte]
    exact applyNamedExports_no_compileError result.named_exports (buildNamespaceBase result) ce
  · intro hno hx
    simp only [loadFile]
    rw [loadFile_errors_eq]
    have hnil : result.diagnostics.filter (fun d => d.level == DiagnosticLevel.Error) = [] := by
      by_contra hne
      obtain ⟨d, hd, hl⟩ := (filter_error_ne_nil_iff result.diagnostics).mp hne
      exact hno d hd hl
    rw [hnil]
    simp only [List.isEmpty_nil, Bool.true_eq_false, if_false, reduceIte]
    exact applyNamedExports_ok result.named_exports (buildNamespaceBase result) hx

/-- C7 (amended): when compilation succeeds (no error diagnostics) and the
names bound in the namespace are collision-free — normalized struct and enum
names distinct from raw component names and from each other, unique within
their category, and export aliases fresh and non-cyclic — the returned
namespace binds every component name whose lookup succeeds to its generated
class, every struct to its wrapper and every enum to its binding under their
normalized names, and binds each named-export alias to the same object as
the original name. -/
theorem loadFile_namespace_contents {E S : Type} (path : String)
    (result : CompilationResult E S)
    (hdiag : ∀ d ∈ result.diagnostics, d.level ≠ DiagnosticLevel.Error)
    (hsc : ∀ s ∈ result.structs, ∀ n ∈ result.component_names, normalize_prop s.1 ≠ n)
    (hec : ∀ e ∈ result.enums, ∀ n ∈ result.component_names, normalize_prop e.1 ≠ n)
    (hes : ∀ e ∈ result.enums, ∀ s ∈ result.structs,
      normalize_prop e.1 ≠ normalize_prop s.1)
    (hsuniq : ∀ s ∈ result.structs, ∀ s' ∈ result.structs,
      normalize_prop s.1 = normalize_prop s'.1 → s = s')
    (heuniq : ∀ e ∈ result.enums, ∀ e' ∈ result.enums,
      normalize_prop e.1 = normalize_prop e'.1 → e = e')
    (hx1 : ∀ oe ∈ result.named_exports,
      ((buildNamespaceBase result).lookup (normalize_prop oe.1)).isSome)
    (hx2 : ∀ oe ∈ result.named_exports, ∀ oe' ∈ result.named_exports,
      normalize_prop oe.1 ≠ normalize_prop oe'.2)
    (hx3 : (result.named_exports.map (fun oe => normalize_prop oe.2)).Nodup)
    (hx4 : ∀ oe ∈ result.named_exports,
      (buildNamespaceBase result).lookup (normalize_prop oe.2) = none) :
    ∃ ns, loadFile path result = Except.ok ns ∧
      (∀ name ∈ result.component_names, ∀ comp, result.component name = some comp →
        ns.lookup name = some (NsValue.componentClass (buildClass comp))) ∧
      (∀ s ∈ result.structs, ns.lookup (normalize_prop s.1) =
        some (NsValue.structWrapper (normalize_prop s.1) s.2)) ∧
      (∀ e ∈ result.enums, ns.lookup (normalize_prop e.1) =
        some (NsValue.enumBinding e.2)) ∧
      (∀ oe ∈ result.named_exports,
        ns.lookup (normalize_prop oe.2) = ns.lookup (normalize_prop oe.1) ∧
        (ns.lookup (normalize_prop oe.2)).isSome) := by
  -- the three base-binding facts
  have hbase_comp : ∀ name ∈ result.component_names, ∀ comp,
      result.component name = some comp →
      (buildNamespaceBase result).lookup name =
        some (NsValue.componentClass (buildClass comp)) := by
    intro name hmem comp hc
    unfold buildNamespaceBase
    rw [foldl_dictSet_keyf_other _ _ result.enums (fun e he => hec e he name hmem)]
    rw [foldl_dictSet_keyf_other _ _ result.structs (fun s hs => hsc s hs name hmem)]
    exact components_fold_lookup result.component result.component_names hmem hc
  have hbase_struct : ∀ s ∈ result.structs,
      (buildNamespaceBase result).lookup (normalize_prop s.1) =
        some (NsValue.structWrapper (normalize_prop s.1) s.2) := by
    intro s hs
    unfold buildNamespaceBase
    rw [foldl_dictSet_keyf_other _ _ result.enums
      (fun e he => hes e he s hs)]
    exact foldl_dictSet_lookup (fun (x : String × S) => normalize_prop x.1)
      (fun x => NsValue.structWrapper (normalize_prop x.1) x.2) result.structs hs
      (fun s' hs' he' => by rw [hsuniq s' hs' s hs he'])
  have hbase_enum : ∀ e ∈ result.enums,
      (buildNamespaceBase result).lookup (normalize_prop e.1) =
        some (NsValue.enumBinding e.2) := by
    intro e he
    unfold buildNamespaceBase
    exact foldl_dictSet_lookup (fun (x : String × E) => normalize_prop x.1)
      (fun x => NsValue.enumBinding x.2) result.enums he
      (fun e' he' heq => by rw [heuniq e' he' e he heq])
  -- pass the export stage
  obtain ⟨ns, hns, hpres, halias⟩ :=
    applyNamedExports_spec result.named_exports (buildNamespaceBase result) hx1 hx2 hx3
  have hload : loadFile path result = Except.ok ns := by
    simp only [loadFile]
    rw [loadFile_errors_eq]
    have hnil : result.diagnostics.filter (fun d => d.level == DiagnosticLevel.Error) = [] := by
      by_contra hne
      obtain ⟨d, hd, hl⟩ := (filter_error_ne_nil_iff result.diagnostics).mp hne
      exact hdiag d hd hl
    rw [hnil]
    simp only [List.isEmpty_nil, Bool.true_eq_false, if_false, reduceIte]
    exact hns
  have hfresh : ∀ (k : String), ((buildNamespaceBase result).lookup k).isSome →
      ∀ oe ∈ result.named_exports, k ≠ normalize_prop oe.2 := by
    intro k hk oe hoe he
    rw [he, hx4 oe hoe] at hk
    exact Bool.noConfusion hk
  refine ⟨ns, hload, ?_, ?_, ?_, ?_⟩
  · intro name hmem comp hc
    have hb := hbase_comp name hmem comp hc
    rw [hpres name (hfresh name (by rw [hb]; rfl))]
    exact hb
  · intro s hs
    have hb := hbase_struct s hs
    rw [hpres _ (hfresh _ (by rw [hb]; rfl))]
    exact hb
  · intro e he
    have hb := hbase_enum e he
    rw [hpres _ (hfresh _ (by rw [hb]; rfl))]
    exact hb
  · intro oe hoe
    have horig : ns.lookup (normalize_prop oe.1) =
        (buildNamespaceBase result).lookup (normalize_prop oe.1) :=
      hpres _ (hfresh _ (hx1 oe hoe))
    refine ⟨?_, ?_⟩
    · rw [halias oe hoe, horig]
    · rw [halias oe hoe]
      exact hx1 oe hoe

/-- Witness for the C1 theorem: an error diagnostic raises `CompileError`
carrying the diagnostics; a warning alone returns a namespace. -/
theorem loadFile_error_handling_witness :
    loadFile "app.slint" resCompileErr = Except.error (LoadError.compileError
      (CompileError.mk ("Could not compile " ++ "app.slint") resCompileErr.diagnostics)) ∧
    (∃ ns, loadFile "app.slint" resWarnOnly = Except.ok ns) :=
  ⟨(loadFile_error_handling "app.slint" resCompileErr).1 (by decide),
   (loadFile_error_handling "app.slint" resWarnOnly).2.2 (by decide) (by decide)⟩

/-- Witness for the amended C7 theorem on a collision-free result. -/
theorem loadFile_namespace_contents_witness :
    ∃ ns, loadFile "main.slint" resNsOk = Except.ok ns ∧
      (∀ name ∈ resNsOk.component_names, ∀ comp, resNsOk.component name = some comp →
        ns.lookup name = some (NsValue.componentClass (buildClass comp))) ∧
      (∀ s ∈ resNsOk.structs, ns.lookup (normalize_prop s.1) =
        some (NsValue.structWrapper (normalize_prop s.1) s.2)) ∧
      (∀ e ∈ resNsOk.enums, ns.lookup (normalize_prop e.1) =
        some (NsValue.enumBinding e.2)) ∧
      (∀ oe ∈ resNsOk.named_exports,
        ns.lookup (normalize_prop oe.2) = ns.lookup (normalize_prop oe.1) ∧
        (ns.lookup (normalize_prop oe.2)).isSome) :=
  loadFile_namespace_contents "main.slint" resNsOk (by decide) (by decide) (by decide)
    (by decide) (by decide) (by decide) (by decide) (by decide) (by decide) (by decide)

/-- C7 counterexample: the struct export `foo-bar` normalizes to `foo_bar`
and overwrites the class bound under the raw component name `foo_bar`, so
the namespace does not contain the generated class for that component name. -/
theorem loadFile_component_overwritten :
    "foo_bar" ∈ resNsColl.component_names ∧
    resNsColl.component "foo_bar" = some (ComponentDefinition.mk [] [] [] []) ∧
    loadFile "main.slint" resNsColl =
      Except.ok [("foo_bar", NsValue.structWrapper "foo_bar" ())] ∧
    ¬ (([("foo_bar", NsValue.structWrapper "foo_bar" ())] :
          List (String × NsValue Unit Unit)).lookup "foo_bar" =
        some (NsValue.componentClass (buildClass (ComponentDefinition.mk [] [] [] [])))) :=
  ⟨by decide, by decide, rfl, by decide⟩

theorem handleRuns_cancelled (trace : List HandleEvent) : handleRuns trace true = 0 := by
  induction trace with
  | nil => rfl
  | cons e rest ih =>
    cases e with
    | cancel => exact ih
    | fire => simpa [handleRuns] using ih

theorem handleRuns_of_no_fire (trace : List HandleEvent) (c : Bool)
    (h : HandleEvent.fire ∉ trace) : handleRuns trace c = 0 := by
  induction trace generalizing c with
  | nil => rfl
  | cons e rest ih =>
    cases e with
    | cancel => exact ih true (fun hm => h (List.mem_cons_of_mem _ hm))
    | fire => exact absurd (List.mem_cons_self _ _) h

theorem handleRuns_le_count (trace : List HandleEvent) (c : Bool) :
    handleRuns trace c ≤ trace.count HandleEvent.fire := by
  induction trace generalizing c with
  | nil => exact Nat.le_refl 0
  | cons e rest ih =>
    cases e with
    | cancel =>
      rw [List.count_cons_of_ne (by decide)]
      exact (ih true).trans (Nat.le_refl _)
    | fire =>
      rw [List.count_cons_self]
      cases c with
      | true => simpa [handleRuns] using Nat.le_succ_of_le (ih true)
      | false =>
        simp only [handleRuns, if_false, Bool.false_eq_true]
        have := ih false
        omega

theorem handleRuns_append (pre rest : List HandleEvent) (c : Bool) :
    handleRuns (pre ++ rest) c =
      handleRuns pre c + handleRuns rest (c || pre.contains HandleEvent.cancel) := by
  induction pre generalizing c with
  | nil => simp [handleRuns]
  | cons e pre' ih =>
    cases e with
    | cancel =>
      rw [List.cons_append]
      show handleRuns (pre' ++ rest) true = _
      rw [ih true]
      have hc : ((HandleEvent.cancel :: pre').contains HandleEvent.cancel) = true := by
        simp [List.contains_cons]
      rw [hc]
      simp [handleRuns]
    | fire =>
      rw [List.cons_append]
      show (if c then 0 else 1) + handleRuns (pre' ++ rest) c = _
      rw [ih c]
      have hc : ((HandleEvent.fire :: pre').contains HandleEvent.cancel) =
          pre'.contains HandleEvent.cancel := by
        simp [List.contains_cons]
      rw [hc]
      show _ = (if c then 0 else 1) + handleRuns pre' c + _
      omega

/-- C4: while the core event loop is running, `call_later` takes the Slint
branch, which starts a native single-shot timer whose interval is
`timedelta(seconds=delay)`; along any trace in which the single-shot timer
fires at most once, the handle's callback runs at most once — exactly once
when the timer fires with the handle not yet cancelled, and never when the
handle was cancelled before the firing (or the timer never fires). -/
theorem call_later_single_shot {D : Type} (delay : D) (trace : List HandleEvent)
    (hss : singleShotTrace trace) :
    (∀ started : Bool, call_later_branch started true = CallLaterBranch.slintTimer) ∧
    (call_later_timer_args delay).mode = TimerMode.SingleShot ∧
    (call_later_timer_args delay).interval = Timedelta.mk delay ∧
    handleRuns trace false ≤ 1 ∧
    (HandleEvent.fire ∉ trace → handleRuns trace false = 0) ∧
    (∀ pre post, trace = pre ++ HandleEvent.fire :: post →
      (HandleEvent.cancel ∉ pre → handleRuns trace false = 1) ∧
      (HandleEvent.cancel ∈ pre → handleRuns trace false = 0)) := by
  refine ⟨?_, rfl, rfl, ?_, ?_, ?_⟩
  · intro started
    cases started <;> rfl
  · exact (handleRuns_le_count trace false).trans hss
  · exact handleRuns_of_no_fire trace false
  · intro pre post htr
    have hcount : pre.count HandleEvent.fire + (1 + post.count HandleEvent.fire) ≤ 1 := by
      have := hss
      rw [htr] at this
      unfold singleShotTrace at this
      rw [List.count_append, List.count_cons_self] at this
      omega
    have hpre_nofire : HandleEvent.fire ∉ pre := by
      intro hm
      have := List.count_pos_iff_mem.mpr hm
      omega
    have hpost_nofire : HandleEvent.fire ∉ post := by
      intro hm
      have := List.count_pos_iff_mem.mpr hm
      omega
    rw [htr, handleRuns_append]
    rw [handleRuns_of_no_fire pre false hpre_nofire]
    constructor
    · intro hnc
      have hcf : pre.contains HandleEvent.cancel = false := by
        cases hcc : pre.contains HandleEvent.cancel with
        | false => rfl
        | true =>
          exfalso
          exact hnc (by simpa using hcc)
      rw [hcf]
      show 0 + ((if false = true then 0 else 1) + handleRuns post false) = 1
      rw [handleRuns_of_no_fire post false hpost_nofire]
      rfl
    · intro hc
      have hcf : pre.contains HandleEvent.cancel = true := by simpa using hc
      rw [hcf]
      show 0 + ((if true = true then 0 else 1) + handleRuns post true) = 0
      rw [handleRuns_cancelled post]
      rfl

/-- Witness for the C4 theorem on the trace `[cancel, fire]` at delay 5. -/
theorem call_later_single_shot_witness :
    (∀ started : Bool, call_later_branch started true = CallLaterBranch.slintTimer) ∧
    (call_later_timer_args (5 : Nat)).mode = TimerMode.SingleShot ∧
    (call_later_timer_args (5 : Nat)).interval = Timedelta.mk 5 ∧
    handleRuns [HandleEvent.cancel, HandleEvent.fire] false ≤ 1 ∧
    (HandleEvent.fire ∉ [HandleEvent.cancel, HandleEvent.fire] →
      handleRuns [HandleEvent.cancel, HandleEvent.fire] false = 0) ∧
    (∀ pre post, [HandleEvent.cancel, HandleEvent.fire] = pre ++ HandleEvent.fire :: post →
      (HandleEvent.cancel ∉ pre →
        handleRuns [HandleEvent.cancel, HandleEvent.fire] false = 1) ∧
      (HandleEvent.cancel ∈ pre →
        handleRuns [HandleEvent.cancel, HandleEvent.fire] false = 0)) :=
  call_later_single_shot (5 : Nat) [HandleEvent.cancel, HandleEvent.fire] (by decide)

end SlintPy
